import Mathlib

/-!
Verification of the Lavoe audio chopping product.

The TypeScript frontend under `src/frontend` (and the unnamed frontend
modules) is embedded directly.  The Python segmentation-and-clustering
engine described by the specification is not present in the source tree
(only its README and its HTTP callers are), so the engine is modelled
from the specification, definition by definition; each such definition
carries a doc comment starting with `Modelled from the spec:`.
-/

set_option autoImplicit false

namespace Lavoe

/-! ### Base64 transport (`src/frontend/lib/audio-utils.ts`)

`fileToBase64` reads a `File` as a data URL (the browser produces
`data:<mime>;base64,<payload>` where `<payload>` is the RFC 4648 base64
encoding of the file bytes) and returns `result.split(',')[1]`.
`base64ToBlob` applies `atob` and packs the character codes of the
decoded binary string into a `Uint8Array`.  Bytes are `Nat < 256`. -/

/-- The base64 alphabet used by `btoa`/`atob` and by `FileReader`'s
data-URL encoding (RFC 4648, standard alphabet). -/
def base64Alphabet : List Char :=
  "ABCDEFGHIJKLMNOPQRSTUVWXYZabcdefghijklmnopqrstuvwxyz0123456789+/".toList

/-- Character for a sextet value (0..63). -/
def b64Char (n : Nat) : Char := base64Alphabet.getD n 'A'

/-- Index of a character in the base64 alphabet, `none` when the
character is not part of the alphabet (as `atob` rejects it). -/
def sextetOf (c : Char) : Option Nat :=
  let i := base64Alphabet.findIdx (fun x => x == c)
  if i < 64 then some i else none

/-- RFC 4648 base64 encoding of a byte list, as performed by the
browser when building the data URL that `fileToBase64` reads:
3 bytes become 4 alphabet characters, a 1-byte tail becomes 2
characters plus `==`, a 2-byte tail becomes 3 characters plus `=`. -/
def encodeB64 : List Nat → List Char
  | [] => []
  | [a] => [b64Char (a / 4), b64Char (a % 4 * 16), '=', '=']
  | [a, b] => [b64Char (a / 4), b64Char (a % 4 * 16 + b / 16),
               b64Char (b % 16 * 4), '=']
  | a :: b :: c :: rest =>
      b64Char (a / 4) :: b64Char (a % 4 * 16 + b / 16) ::
      b64Char (b % 16 * 4 + c / 64) :: b64Char (c % 64) :: encodeB64 rest

/-- `atob` semantics on a character list: groups of four characters are
decoded to three bytes; `==` and `=` tails produce one and two bytes;
any other shape or any non-alphabet character fails. -/
def decodeB64 : List Char → Option (List Nat)
  | [] => some []
  | c1 :: c2 :: c3 :: c4 :: rest =>
      if c3 = '=' ∧ c4 = '=' ∧ rest = [] then
        match sextetOf c1, sextetOf c2 with
        | some s1, some s2 => some [s1 * 4 + s2 / 16]
        | _, _ => none
      else if c4 = '=' ∧ rest = [] then
        match sextetOf c1, sextetOf c2, sextetOf c3 with
        | some s1, some s2, some s3 =>
            some [s1 * 4 + s2 / 16, s2 % 16 * 16 + s3 / 4]
        | _, _, _ => none
      else
        match sextetOf c1, sextetOf c2, sextetOf c3, sextetOf c4 with
        | some s1, some s2, some s3, some s4 =>
            (decodeB64 rest).map
              (fun tail => (s1 * 4 + s2 / 16) :: (s2 % 16 * 16 + s3 / 4) ::
                           (s3 % 4 * 64 + s4) :: tail)
        | _, _, _, _ => none
  | _ => none

/-- JavaScript `String.prototype.split(',')` on a character list. -/
def splitComma : List Char → List (List Char)
  | [] => [[]]
  | c :: rest =>
      let r := splitComma rest
      if c = ',' then [] :: r
      else (c :: r.headD []) :: r.tail

/-- The data-URL character prelude produced by `readAsDataURL` for a
WAV file, up to and including the comma. -/
def dataUrlPrelude : List Char := "data:audio/wav;base64,".toList

/-- `fileToBase64` on a file whose bytes are `bytes`: the reader yields
the data URL, and the function returns `result.split(',')[1]`
(`src/frontend/lib/audio-utils.ts` lines 5-20). -/
def fileToBase64 (bytes : List Nat) : List Char :=
  (splitComma (dataUrlPrelude ++ encodeB64 bytes)).getD 1 []

/-- `base64ToBlob`: `atob`, then `charCodeAt` of every position of the
decoded binary string into a `Uint8Array`, i.e. exactly the decoded
byte list (`src/frontend/lib/audio-utils.ts` lines 22-32).  `none`
models the exception `atob` throws on invalid input. -/
def base64ToBlob (s : List Char) : Option (List Nat) := decodeB64 s

/-! ### The `chopAudio` tool schema (`src/frontend/app/api/agent-chat/route.ts`)

The zod input schema of the `chopAudio` tool (lines 21-27): four numeric
parameters with `min`/`max` bounds and declared defaults. -/

/-- The zod range checks of `chopAudio.inputSchema`: `defaultLength`
in [0.1, 10], `minDuration` in [0.05, 2], `nClusters` in [1, 20],
`maxChops` in [1, 50]. -/
def chopAudioSchemaAccepts (defaultLength minDuration nClusters maxChops : ℚ) : Bool :=
  decide ((1:ℚ)/10 ≤ defaultLength ∧ defaultLength ≤ 10) &&
  decide ((1:ℚ)/20 ≤ minDuration ∧ minDuration ≤ 2) &&
  decide (1 ≤ nClusters ∧ nClusters ≤ 20) &&
  decide (1 ≤ maxChops ∧ maxChops ≤ 50)

/-- The default declared for `nClusters` in the `chopAudio` tool schema
(`.default(3)`, route.ts line 25). -/
def chopAudioSchemaDefaultNClusters : ℚ := 3

/-! ### The client-side tool-call handler (unnamed module `part_002`,
`AiSidebar`) -/

/-- The `chopAudio` arguments as they may arrive in `onToolCall`:
`trackId` plus three optional numbers (the destructuring mentions no
`maxChops`). -/
structure ChopToolCallInput where
  trackId : String
  defaultLength : Option ℚ
  minDuration : Option ℚ
  nClusters : Option ℚ

/-- The destructuring with fallbacks in `onToolCall` for `chopAudio`
(part_002: `const { trackId, defaultLength = 1.8, minDuration = 0.2,
nClusters = 6 } = toolCall.input`), returning the values handed to
`handleChopAudio`. -/
def onToolCallChopArgs (i : ChopToolCallInput) : String × ℚ × ℚ × ℚ :=
  (i.trackId, i.defaultLength.getD ((9:ℚ)/5), i.minDuration.getD ((1:ℚ)/5),
   i.nClusters.getD 6)

/-- A JSON value appearing in a request body. -/
inductive JsonVal
  | str (v : String)
  | num (v : ℚ)
deriving DecidableEq

/-- The JSON body `handleChopAudio` sends to
`http://localhost:8000/process/chop-audio` (part_002 lines 522-545):
`{ track_id, default_length, min_duration, n_clusters }`. -/
def handleChopAudioBody (trackId : String) (defaultLength minDuration nClusters : ℚ) :
    List (String × JsonVal) :=
  [("track_id", JsonVal.str trackId),
   ("default_length", JsonVal.num defaultLength),
   ("min_duration", JsonVal.num minDuration),
   ("n_clusters", JsonVal.num nClusters)]

/-! ### The current tool-call handler
(`src/frontend/components/beat/AiSidebar.tsx`) -/

/-- The `chopAudio` arguments as they may arrive in the named beat
sidebar's `onToolCall` (lines 331-358): `trackId` plus four optional
numbers. -/
structure BeatChopToolCallInput where
  trackId : String
  defaultLength : Option ℚ
  minDuration : Option ℚ
  nClusters : Option ℚ
  maxChops : Option ℚ

/-- The destructuring with fallbacks in `beat/AiSidebar.tsx`'s
`onToolCall` for `chopAudio` (`const { trackId, defaultLength = 1.8,
minDuration = 0.2, nClusters = 3, maxChops = 6 } = toolCall.input`),
returning the five values handed to its `handleChopAudio`. -/
def beatSidebarChopArgs (i : BeatChopToolCallInput) :
    String × ℚ × ℚ × ℚ × ℚ :=
  (i.trackId, i.defaultLength.getD ((9:ℚ)/5), i.minDuration.getD ((1:ℚ)/5),
   i.nClusters.getD 3, i.maxChops.getD 6)

/-- The JSON body `beat/AiSidebar.tsx`'s `handleChopAudio` sends to
`http://localhost:8000/process/chop-audio` (lines 466-489):
`{ track_id, default_length, min_duration, n_clusters, max_chops }`. -/
def beatSidebarChopBody (trackId : String)
    (defaultLength minDuration nClusters maxChops : ℚ) :
    List (String × JsonVal) :=
  [("track_id", JsonVal.str trackId),
   ("default_length", JsonVal.num defaultLength),
   ("min_duration", JsonVal.num minDuration),
   ("n_clusters", JsonVal.num nClusters),
   ("max_chops", JsonVal.num maxChops)]

/-! ### The `useAudioProcessing` hook (unnamed module `part_001`) -/

/-- The optional tuning parameters accepted by the hook's `chopAudio`
(part_001 lines 83-93): only `default_length`, `min_duration` and
`n_clusters` exist in its parameter type. -/
structure HookChopParams where
  default_length : Option ℚ
  min_duration : Option ℚ
  n_clusters : Option ℚ

/-- The JSON body `processAudio` posts for the hook's `chopAudio`:
`{ audio_data, filename, ...params }`. -/
def hookChopAudioBody (audioData filename : String) (p : HookChopParams) :
    List (String × JsonVal) :=
  [("audio_data", JsonVal.str audioData), ("filename", JsonVal.str filename)] ++
  (match p.default_length with
   | some v => [("default_length", JsonVal.num v)]
   | none => []) ++
  (match p.min_duration with
   | some v => [("min_duration", JsonVal.num v)]
   | none => []) ++
  (match p.n_clusters with
   | some v => [("n_clusters", JsonVal.num v)]
   | none => [])

/-! ### The beat-maker timeline handler
(`src/frontend/components/beat-maker.tsx`) -/

/-- The fields of one chop that `handleAudioProcessed` reads. -/
structure ChopPayload where
  id : String
  duration : ℚ
deriving DecidableEq

/-- A timeline block as created by `handleAudioProcessed`. -/
structure MusicBlock where
  id : String
  name : String
  btype : String
  color : String
  startTime : ℚ
  duration : ℚ
  track : Nat
deriving DecidableEq

/-- The chop branch of `handleAudioProcessed` (beat-maker.tsx lines
189-206): `result.chops.slice(0, 8).map((chop, index) => ({...}))` with
`duration: Math.max(2, Math.min(8, chop.duration * 4))`, `startTime:
index * 8` and `track: index % tracks.length`.  `now` stands for the
`Date.now()` timestamp used in the generated ids. -/
def handleAudioProcessedChopBlocks (now : Nat) (nTracks : Nat)
    (chops : List ChopPayload) : List MusicBlock :=
  (chops.take 8).mapIdx (fun index chop =>
    { id := s!"chop-{now}-{index}",
      name := chop.id,
      btype := "melody",
      color := "bg-emerald-500",
      startTime := (index : ℚ) * 8,
      duration := max 2 (min 8 (chop.duration * 4)),
      track := index % nTracks })

/-! ### The segmentation-and-clustering engine, modelled from the spec

The Python engine (FastAPI + librosa + sklearn, `src/backend`) is not in
the source tree — only its README and its HTTP callers are.  The
definitions below model it from the specification (§3-§7), in exact
rational arithmetic. -/

/-- Modelled from the spec: §6 the four tuning parameters of the public
chop operation (the missing engine's validated configuration). -/
structure ChopParams where
  default_length : ℚ
  min_duration : ℚ
  n_clusters : Nat
  max_chops : Nat
deriving DecidableEq

/-- Modelled from the spec: §6/§7 the failure kinds surfaced by the
missing engine. -/
inductive ChopError
  | decodeError
  | emptyAudioError
  | segmentationInfeasibleError (offending : ℚ)
  | invalidParameterError
deriving DecidableEq

/-- Modelled from the spec: §3 AudioBuffer — sample rate plus the mono
reduction of the sample data (the per-channel view adds nothing the
claims touch). -/
structure AudioBuffer where
  sampleRate : Nat
  samples : List ℚ
deriving DecidableEq

/-- Buffer duration in seconds.  A zero sample rate yields duration 0
(rational division by zero), which the pipeline rejects as empty. -/
def AudioBuffer.duration (b : AudioBuffer) : ℚ :=
  (b.samples.length : ℚ) / (b.sampleRate : ℚ)

/-- Modelled from the spec: §6/§9 eager validation of the parameter
ranges — positive `default_length` and `min_duration`, `n_clusters ≥ 1`,
`max_chops ≥ 1`. -/
def validParams (p : ChopParams) : Bool :=
  decide (0 < p.default_length) && decide (0 < p.min_duration) &&
  decide (1 ≤ p.n_clusters) && decide (1 ≤ p.max_chops)

/-- Modelled from the spec: §4.2 the fixed size of the onset detector's
analysis windows, in samples. -/
def windowSize : Nat := 512

/-- Modelled from the spec: §4.2 short-time energy of every full
analysis window. -/
def windowEnergies (samples : List ℚ) : List ℚ :=
  (List.range (samples.length / windowSize)).map
    (fun i => (((samples.drop (i * windowSize)).take windowSize).map
                 (fun x => x * x)).sum)

/-- Modelled from the spec: §4.2 onsets at windows whose energy exceeds
the previous window's energy plus a margin (here: doubled), time 0
always included; with no peak anywhere the set degenerates to `{0}`. -/
def onsetTimes (b : AudioBuffer) : List ℚ :=
  0 :: ((List.range (b.samples.length / windowSize)).filter
      (fun i => decide (1 ≤ i) &&
        decide ((windowEnergies b.samples).getD (i - 1) 0 * 2 <
                (windowEnergies b.samples).getD i 0))).map
    (fun i => ((i * windowSize : Nat) : ℚ) / (b.sampleRate : ℚ))

/-- Interval lengths between consecutive candidate boundaries — each
onset plus the buffer end (spec §4.3). -/
def boundaryDiffs : List ℚ → ℚ → List ℚ
  | [], _ => []
  | [x], dur => [dur - x]
  | x :: y :: rest, dur => (y - x) :: boundaryDiffs (y :: rest) dur

/-- Modelled from the spec: §4.3 merge an interval shorter than
`min_duration` forward into the next interval until the merged span
reaches `min_duration` or boundaries are exhausted. -/
def mergeForward (m : ℚ) : List ℚ → List ℚ
  | [] => []
  | [x] => [x]
  | x :: y :: rest =>
      if x < m then mergeForward m ((x + y) :: rest)
      else x :: mergeForward m (y :: rest)
termination_by l => l.length

/-- Modelled from the spec: §4.3 a trailing interval still shorter than
`min_duration` after the forward pass is merged into its predecessor. -/
def mergeTail (m : ℚ) : List ℚ → List ℚ
  | [] => []
  | [x] => [x]
  | [x, y] => if y < m then [x + y] else [x, y]
  | x :: y :: z :: rest => x :: mergeTail m (y :: z :: rest)

/-- Modelled from the spec: §4.3 an interval longer than
`default_length` is subdivided into consecutive `default_length`
windows, the final remainder merged into its predecessor when shorter
than `min_duration`; per the §3 Segment invariant the subdivision only
applies when the windows themselves satisfy `min_duration`. -/
def subdivide (d m x : ℚ) : List ℚ :=
  if d < x ∧ m ≤ d then
    let k : Nat := ((x / d).floor).toNat
    let r : ℚ := x - (k : ℚ) * d
    if r = 0 then List.replicate k d
    else if m ≤ r then List.replicate k d ++ [r]
    else List.replicate (k - 1) d ++ [d + r]
  else [x]

/-- Modelled from the spec: §4.3 the Segmenter's interval lengths —
boundary intervals, forward merge, tail merge, subdivision. -/
def segmentLengths (p : ChopParams) (dur : ℚ) (onsets : List ℚ) : List ℚ :=
  (mergeTail p.min_duration
    (mergeForward p.min_duration (boundaryDiffs onsets dur))).flatMap
    (subdivide p.default_length p.min_duration)

/-- Segments (start, end) laid out consecutively from a start offset. -/
def segmentsFromLengths (s : ℚ) : List ℚ → List (ℚ × ℚ)
  | [] => []
  | l :: rest => (s, s + l) :: segmentsFromLengths (s + l) rest

/-- Modelled from the spec: §4.3 the Segmenter — ordered segments, or
`SegmentationInfeasibleError` naming the buffer duration when the
policy leaves some interval below `min_duration`. -/
def runSegmenter (p : ChopParams) (b : AudioBuffer) :
    Except ChopError (List (ℚ × ℚ)) :=
  let lens := segmentLengths p b.duration (onsetTimes b)
  if lens.all (fun l => decide (p.min_duration ≤ l)) && !(lens.isEmpty) then
    Except.ok (segmentsFromLengths 0 lens)
  else Except.error (ChopError.segmentationInfeasibleError b.duration)

/-- Sample view of a segment inside the buffer (spec §3/§4.4). -/
def segmentSamples (b : AudioBuffer) (seg : ℚ × ℚ) : List ℚ :=
  let i := ((seg.1 * (b.sampleRate : ℚ)).floor).toNat
  let j := ((seg.2 * (b.sampleRate : ℚ)).floor).toNat
  (b.samples.drop i).take (j - i)

/-- Modelled from the spec: §4.4 mean-square energy (RMS without the
square root, to stay in ℚ); a degenerate empty window is clamped
to 0. -/
def meanSquareEnergy (xs : List ℚ) : ℚ :=
  if xs.length = 0 then 0
  else (xs.map (fun x => x * x)).sum / (xs.length : ℚ)

/-- Sign changes between consecutive samples. -/
def countCrossings : List ℚ → Nat
  | x :: y :: rest =>
      (if (x < 0 ∧ 0 ≤ y) ∨ (y < 0 ∧ 0 ≤ x) then 1 else 0) +
      countCrossings (y :: rest)
  | _ => 0

/-- Modelled from the spec: §4.4 zero-crossing rate, clamped to 0 on a
degenerate empty window. -/
def zeroCrossingRate (xs : List ℚ) : ℚ :=
  if xs.length = 0 then 0 else (countCrossings xs : ℚ) / (xs.length : ℚ)

/-- Modelled from the spec: §4.4 the fixed-dimension feature vector of
one segment — mean-square energy and zero-crossing rate. -/
def featureVector (b : AudioBuffer) (seg : ℚ × ℚ) : List ℚ :=
  [meanSquareEnergy (segmentSamples b seg),
   zeroCrossingRate (segmentSamples b seg)]

/-- Modelled from the spec: §4.5 per-dimension centering and scaling
with the run's own statistics (the variance stands in for the standard
deviation so the model stays in exact rational arithmetic; a constant
dimension maps to 0). -/
def standardize (vecs : List (List ℚ)) : List (List ℚ) :=
  let n := vecs.length
  let dims := (vecs.headD []).length
  let mean := fun j => ((vecs.map (fun v => v.getD j 0)).sum) / (n : ℚ)
  let var := fun j =>
    ((vecs.map (fun v => (v.getD j 0 - mean j) ^ 2)).sum) / (n : ℚ)
  vecs.map (fun v => (List.range dims).map
    (fun j => if var j = 0 then 0 else (v.getD j 0 - mean j) / var j))

/-- Squared Euclidean distance (comparing squared distances avoids the
square root and induces the same nearest-centroid choice). -/
def sqDist (a c : List ℚ) : ℚ :=
  ((List.range (max a.length c.length)).map
    (fun j => (a.getD j 0 - c.getD j 0) ^ 2)).sum

/-- Index of the nearest centroid, lowest index winning ties. -/
def nearestIdx (cs : List (List ℚ)) (v : List ℚ) : Nat :=
  ((List.range cs.length).argmin (fun i => sqDist (cs.getD i []) v)).getD 0

/-- One assignment pass: every point to its nearest centroid. -/
def assignLabels (cs : List (List ℚ)) (pts : List (List ℚ)) : List Nat :=
  pts.map (nearestIdx cs)

/-- Modelled from the spec: §4.5 a centroid is recomputed as the mean
of its assigned points; an empty cluster keeps its previous centroid. -/
def newCentroid (pts : List (List ℚ)) (old : List ℚ) : List ℚ :=
  if pts.length = 0 then old
  else (List.range old.length).map
    (fun j => ((pts.map (fun v => v.getD j 0)).sum) / (pts.length : ℚ))

/-- Recompute all centroids from an assignment. -/
def updateCentroids (cs : List (List ℚ)) (pts : List (List ℚ))
    (labels : List Nat) : List (List ℚ) :=
  cs.mapIdx (fun l c =>
    newCentroid (((pts.zip labels).filter (fun q => q.2 == l)).map Prod.fst) c)

/-- Modelled from the spec: §4.5 iterative centroid refinement with a
fixed iteration cap, stopping when assignments no longer change. -/
def kmeansLoop (pts : List (List ℚ)) : Nat → List (List ℚ) → List Nat
  | 0, cs => assignLabels cs pts
  | fuel + 1, cs =>
      if assignLabels (updateCentroids cs pts (assignLabels cs pts)) pts =
          assignLabels cs pts
      then assignLabels cs pts
      else kmeansLoop pts fuel (updateCentroids cs pts (assignLabels cs pts))

/-- Modelled from the spec: §4.5 the Clusterer — `K_effective =
min(n_clusters, N)`, fixed-index (deterministic) initialization that
never reads the ambient random seed, and one cluster per segment when
`K_effective = N` (§8 Scenario B, subsuming the `N = 1`
short-circuit). -/
def kmeansLabels (seed : Nat) (k : Nat) (pts : List (List ℚ)) : List Nat :=
  if min k pts.length = pts.length then List.range pts.length
  else kmeansLoop pts 16 (pts.take (min k pts.length))

/-- Members of cluster `l` in chronological (index) order. -/
def clusterMembers (labels : List Nat) (l : Nat) : List Nat :=
  (List.range labels.length).filter (fun i => labels.getD i 0 == l)

/-- Size of cluster `l`. -/
def clusterSize (labels : List Nat) (l : Nat) : Nat :=
  (clusterMembers labels l).length

/-- Mean feature vector of the members of cluster `l`. -/
def centroidOf (pts : List (List ℚ)) (labels : List Nat) (l : Nat) : List ℚ :=
  newCentroid ((clusterMembers labels l).map (fun i => pts.getD i []))
    (pts.headD [])

/-- Modelled from the spec: §4.6 rank a cluster's members by proximity
to the cluster centroid, ties broken by earlier start time (segments
are chronological, so by smaller index). -/
def rankedMembers (pts : List (List ℚ)) (c : List ℚ) (members : List Nat) :
    List Nat :=
  List.insertionSort
    (fun i j => sqDist (pts.getD i []) c < sqDist (pts.getD j []) c ∨
      (sqDist (pts.getD i []) c = sqDist (pts.getD j []) c ∧ i ≤ j)) members

/-- Modelled from the spec: §4.6 proportional budget share of a cluster
of size `s`, with a floor of one representative. -/
def clusterQuota (M N s : Nat) : Nat := max 1 (M * s / N)

/-- Modelled from the spec: §4.6 the Representative Selector — with
`M < K_effective` one representative from each of the `M` largest
clusters, otherwise the proportional budget per cluster; the chosen
indices are re-sorted chronologically and never exceed the budget. -/
def selectRepresentatives (M keff : Nat) (pts : List (List ℚ))
    (labels : List Nat) : List Nat :=
  let N := labels.length
  let picked :=
    if M < keff then
      ((List.insertionSort
          (fun l1 l2 => clusterSize labels l2 < clusterSize labels l1 ∨
            (clusterSize labels l1 = clusterSize labels l2 ∧ l1 ≤ l2))
          (List.range keff)).take M).flatMap
        (fun l => (rankedMembers pts (centroidOf pts labels l)
            (clusterMembers labels l)).take 1)
    else
      ((List.range keff).flatMap
        (fun l => (rankedMembers pts (centroidOf pts labels l)
            (clusterMembers labels l)).take
          (clusterQuota M N (clusterSize labels l)))).take M
  List.insertionSort (fun i j => i ≤ j) picked

/-- Modelled from the spec: §3/§4.7 the externally visible chop record
(`stop` models the reserved field name `end`). -/
structure ChopSummary where
  id : Nat
  start : ℚ
  stop : ℚ
  duration : ℚ
  clusterLabel : Nat
  descriptor : String
  features : List ℚ
  audio : List ℚ
deriving DecidableEq

/-- Modelled from the spec: §4.7 a short descriptor derived
deterministically from the feature snapshot by thresholds. -/
def descriptorOf (f : List ℚ) : String :=
  (if (1:ℚ)/100 < f.getD 0 0 then "loud" else "soft") ++ "/" ++
  (if (1:ℚ)/10 < f.getD 1 0 then "busy" else "sustained")

/-- Modelled from the spec: §4.7/§6 run-level metadata. -/
structure RunMetadata where
  onsets_detected : Nat
  segments_before_filtering : Nat
  clusters_used : Nat
  chops_returned : Nat
deriving DecidableEq

/-- The full output of one successful invocation. -/
structure ChopResult where
  chops : List ChopSummary
  metadata : RunMetadata
deriving DecidableEq

/-- The standardized feature vectors of a segment list. -/
def pipelinePoints (b : AudioBuffer) (segs : List (ℚ × ℚ)) : List (List ℚ) :=
  standardize (segs.map (featureVector b))

/-- Modelled from the spec: §4.7 assemble one ChopSummary from the
selected segment index. -/
def buildChop (b : AudioBuffer) (segs : List (ℚ × ℚ)) (labels : List Nat)
    (i : Nat) : ChopSummary :=
  let seg := segs.getD i (0, 0)
  { id := i, start := seg.1, stop := seg.2,
    duration := seg.2 - seg.1,
    clusterLabel := labels.getD i 0,
    descriptor := descriptorOf ((segs.map (featureVector b)).getD i []),
    features := (segs.map (featureVector b)).getD i [],
    audio := segmentSamples b seg }

/-- Modelled from the spec: §6 the public chop operation — eager
parameter validation before any buffer work, empty-audio rejection,
then Segmenter → Feature Extractor → Clusterer → Representative
Selector → Chop Summary Builder.  `seed` stands for the ambient
randomness a clustering library could consume; the deterministic design
never reads it. -/
def runChop (seed : Nat) (p : ChopParams) (b : AudioBuffer) :
    Except ChopError ChopResult :=
  if validParams p then
    if b.duration = 0 then Except.error ChopError.emptyAudioError
    else
      match runSegmenter p b with
      | Except.error e => Except.error e
      | Except.ok segs =>
        let pts := pipelinePoints b segs
        let labels := kmeansLabels seed p.n_clusters pts
        let keff := min p.n_clusters segs.length
        let chosen := selectRepresentatives p.max_chops keff pts labels
        let chops := chosen.map (buildChop b segs labels)
        Except.ok
          { chops := chops,
            metadata :=
              { onsets_detected := (onsetTimes b).length,
                segments_before_filtering := segs.length,
                clusters_used := keff,
                chops_returned := chops.length } }
  else Except.error ChopError.invalidParameterError

/-- The cluster sizes of one run, recomputed from the pipeline's
intermediate stages (for stating the budget-distribution side
condition). -/
def runClusterSizes (seed : Nat) (p : ChopParams) (b : AudioBuffer) :
    List Nat :=
  match runSegmenter p b with
  | Except.error _ => []
  | Except.ok segs =>
      (List.range (min p.n_clusters segs.length)).map
        (fun l => clusterSize
          (kmeansLabels seed p.n_clusters (pipelinePoints b segs)) l)

/-- The proportional budget distribution of `M` over cluster sizes has
no remainder ambiguity: every proportional share `M * s / N` is exact. -/
def noRemainderAmbiguity (M N : Nat) (sizes : List Nat) : Prop :=
  ∀ s ∈ sizes, N ∣ M * s

/-- Decidable equality on `Except`, for evaluating the pipeline on the
concrete fixtures. -/
instance exceptDecEq {e a : Type} [DecidableEq e] [DecidableEq a] :
    DecidableEq (Except e a) := fun x y =>
  match x, y with
  | Except.error e1, Except.error e2 =>
      if h : e1 = e2 then isTrue (by rw [h])
      else isFalse (by intro hc; injection hc; exact h ‹_›)
  | Except.ok a1, Except.ok a2 =>
      if h : a1 = a2 then isTrue (by rw [h])
      else isFalse (by intro hc; injection hc; exact h ‹_›)
  | Except.error _, Except.ok _ => isFalse (by intro hc; cases hc)
  | Except.ok _, Except.error _ => isFalse (by intro hc; cases hc)

/-! ### Concrete test fixtures

A tiny buffer on which the modelled pipeline succeeds, and a buffer
shorter than `min_duration` on which it must fail. -/

/-- Fixture: a 4-second silent buffer at 1 Hz. -/
def witnessBuffer : AudioBuffer := ⟨1, [0, 0, 0, 0]⟩

/-- Fixture: 1-second windows, 1-second floor, 2 clusters, 2 chops. -/
def witnessParams : ChopParams := ⟨1, 1, 2, 2⟩

/-- Fixture: the result the modelled pipeline computes on
`witnessBuffer`/`witnessParams`. -/
def witnessResult : ChopResult :=
  ⟨[⟨0, 0, 1, 1, 0, "soft/sustained", [0, 0], [0]⟩,
    ⟨1, 1, 2, 1, 0, "soft/sustained", [0, 0], [0]⟩],
   ⟨1, 4, 2, 2⟩⟩

/-- Fixture: a 0.3-second buffer (3 samples at 10 Hz). -/
def shortBuffer : AudioBuffer := ⟨10, [0, 0, 0]⟩

/-- Fixture: parameters with a 0.5-second `min_duration`. -/
def shortParams : ChopParams := ⟨(9:ℚ)/5, (1:ℚ)/2, 2, 2⟩

/-! ## Lemmas about the base64 transport -/

theorem sextet_b64Char : ∀ s ∈ List.range 64, sextetOf (b64Char s) = some s := by
  decide

theorem b64Char_ne : ∀ s ∈ List.range 64, b64Char s ≠ ',' ∧ b64Char s ≠ '=' := by
  decide

theorem sextetOf_b64Char {s : Nat} (h : s < 64) : sextetOf (b64Char s) = some s :=
  sextet_b64Char s (List.mem_range.mpr h)

theorem b64Char_ne_pad {s : Nat} (h : s < 64) : b64Char s ≠ '=' :=
  (b64Char_ne s (List.mem_range.mpr h)).2

theorem decodeB64_encodeB64 (bytes : List Nat) (h : ∀ b ∈ bytes, b < 256) :
    decodeB64 (encodeB64 bytes) = some bytes := by
  induction bytes using encodeB64.induct with
  | case1 => rfl
  | case2 a =>
      have ha : a < 256 := h a (by simp)
      have s1 := sextetOf_b64Char (s := a / 4) (by omega)
      have s2 := sextetOf_b64Char (s := a % 4 * 16) (by omega)
      simp [encodeB64, decodeB64, s1, s2]
      omega
  | case3 a b =>
      have ha : a < 256 := h a (by simp)
      have hb : b < 256 := h b (by simp)
      have h3 : b64Char (b % 16 * 4) ≠ '=' := b64Char_ne_pad (by omega)
      have s1 := sextetOf_b64Char (s := a / 4) (by omega)
      have s2 := sextetOf_b64Char (s := a % 4 * 16 + b / 16) (by omega)
      have s3 := sextetOf_b64Char (s := b % 16 * 4) (by omega)
      simp [encodeB64, decodeB64, h3, s1, s2, s3]
      constructor <;> omega
  | case4 a b c rest ih =>
      have ha : a < 256 := h a (by simp)
      have hb : b < 256 := h b (by simp)
      have hc : c < 256 := h c (by simp)
      have hrest : ∀ x ∈ rest, x < 256 := fun x hx => h x (by simp [hx])
      have h3 : b64Char (b % 16 * 4 + c / 64) ≠ '=' := b64Char_ne_pad (by omega)
      have h4 : b64Char (c % 64) ≠ '=' := b64Char_ne_pad (by omega)
      have s1 := sextetOf_b64Char (s := a / 4) (by omega)
      have s2 := sextetOf_b64Char (s := a % 4 * 16 + b / 16) (by omega)
      have s3 := sextetOf_b64Char (s := b % 16 * 4 + c / 64) (by omega)
      have s4 := sextetOf_b64Char (s := c % 64) (by omega)
      simp [encodeB64, decodeB64, h3, h4, s1, s2, s3, s4, ih hrest]
      refine ⟨by omega, by omega, by omega⟩

theorem b64Char_ne_comma (n : Nat) : b64Char n ≠ ',' := by
  by_cases hn : n < 64
  · exact (b64Char_ne n (List.mem_range.mpr hn)).1
  · unfold b64Char
    rw [List.getD_eq_default]
    · decide
    · have : base64Alphabet.length = 64 := by decide
      omega

theorem encodeB64_ne_comma (bytes : List Nat) :
    ∀ c ∈ encodeB64 bytes, c ≠ ',' := by
  induction bytes using encodeB64.induct with
  | case1 => simp [encodeB64]
  | case2 a =>
      simp [encodeB64, b64Char_ne_comma]
  | case3 a b =>
      simp [encodeB64, b64Char_ne_comma]
  | case4 a b c rest ih =>
      simp [encodeB64, b64Char_ne_comma]
      exact fun x hx => ih x hx

theorem splitComma_of_no_comma (l : List Char) (h : ∀ c ∈ l, c ≠ ',') :
    splitComma l = [l] := by
  induction l with
  | nil => rfl
  | cons c rest ih =>
      have hc : c ≠ ',' := h c (by simp)
      have := ih (fun x hx => h x (by simp [hx]))
      simp [splitComma, hc, this]

theorem splitComma_append (p : List Char) (xs : List Char)
    (h : ∀ c ∈ p, c ≠ ',') :
    splitComma (p ++ ',' :: xs) = p :: splitComma xs := by
  induction p with
  | nil => simp [splitComma]
  | cons c rest ih =>
      have hc : c ≠ ',' := h c (by simp)
      have := ih (fun x hx => h x (by simp [hx]))
      simp [splitComma, hc, this]

theorem fileToBase64_eq_encodeB64 (bytes : List Nat) :
    fileToBase64 bytes = encodeB64 bytes := by
  unfold fileToBase64
  have hp : dataUrlPrelude = "data:audio/wav;base64".toList ++ [','] := by decide
  rw [hp, List.append_assoc, List.cons_append, List.nil_append,
      splitComma_append _ _ (by decide),
      splitComma_of_no_comma _ (encodeB64_ne_comma bytes)]
  rfl

/-! ## Claim theorems for the frontend code -/

/-- C10: encoding a byte sequence the way `fileToBase64` does (base64
via the data URL, prefix stripped at the comma) and decoding it with
`base64ToBlob` recovers exactly the original bytes — the upload
round-trip preserves audio data. -/
theorem base64_roundtrip (bytes : List Nat) (h : ∀ b ∈ bytes, b < 256) :
    base64ToBlob (fileToBase64 bytes) = some bytes := by
  rw [fileToBase64_eq_encodeB64]
  exact decodeB64_encodeB64 bytes h

/-- Witness for C10 at a concrete five-byte file. -/
theorem base64_roundtrip_witness :
    base64ToBlob (fileToBase64 [72, 101, 108, 108, 111]) =
      some [72, 101, 108, 108, 111] :=
  base64_roundtrip [72, 101, 108, 108, 111] (by decide)

/-- C2, counterexample: the body `handleChopAudio` posts for a concrete
tool call carries only `track_id` and three tuning parameters — the
fourth parameter `max_chops` is absent, so the invocation does not pass
all four parameters as claimed. -/
theorem chop_invocation_no_max_chops :
    (handleChopAudioBody "track-1" ((9:ℚ)/5) ((1:ℚ)/5) 6).map Prod.fst =
      ["track_id", "default_length", "min_duration", "n_clusters"] ∧
    "max_chops" ∉ (handleChopAudioBody "track-1" ((9:ℚ)/5) ((1:ℚ)/5) 6).map Prod.fst := by
  constructor
  · rfl
  · decide

/-- C2, amended: the chop invocation of the current editor/agent
sidebar (`beat/AiSidebar.tsx`) passes a track identifier together with
all four tuning parameters, `max_chops` included; but not every
invocation site does — the unnamed sidebar copy (part_002) and the
`useAudioProcessing` hook (part_001) pass only `default_length`,
`min_duration` and `n_clusters`, omitting `max_chops`. -/
theorem chop_invocation_parameters (t : String) (dl md nc mc : ℚ)
    (a f : String) (hp : HookChopParams) :
    ((beatSidebarChopBody t dl md nc mc).map Prod.fst =
      ["track_id", "default_length", "min_duration", "n_clusters",
        "max_chops"] ∧
      "max_chops" ∈ (beatSidebarChopBody t dl md nc mc).map Prod.fst) ∧
    ((handleChopAudioBody t dl md nc).map Prod.fst =
      ["track_id", "default_length", "min_duration", "n_clusters"] ∧
      "max_chops" ∉ (handleChopAudioBody t dl md nc).map Prod.fst) ∧
    "max_chops" ∉ (hookChopAudioBody a f hp).map Prod.fst := by
  refine ⟨⟨rfl, ?_⟩, ⟨rfl, ?_⟩, ?_⟩
  · rw [show (beatSidebarChopBody t dl md nc mc).map Prod.fst =
        ["track_id", "default_length", "min_duration", "n_clusters",
          "max_chops"] from rfl]
    decide
  · rw [show (handleChopAudioBody t dl md nc).map Prod.fst =
        ["track_id", "default_length", "min_duration", "n_clusters"] from rfl]
    decide
  · unfold hookChopAudioBody
    rcases hp with ⟨dlo, mdo, nco⟩
    cases dlo <;> cases mdo <;> cases nco <;> simp

/-- C9, counterexample: when the agent omits `nClusters`, the
client-side destructuring fallback in `AiSidebar.onToolCall` yields 6,
which differs from the `chopAudio` tool schema's declared default
of 3 — the two embeddings of the default-parameter policy disagree. -/
theorem nclusters_default_mismatch :
    (onToolCallChopArgs ⟨"track-1", none, none, none⟩).2.2.2 ≠
      chopAudioSchemaDefaultNClusters := by
  with_unfolding_all decide

/-- C9, amended: the default cluster count is 3 in the `chopAudio` tool
schema but 6 in the client-side destructuring fallback of
`AiSidebar.onToolCall`; the two embeddings of the default-parameter
policy do not agree. -/
theorem nclusters_defaults_disagree (t : String) (dl md : Option ℚ) :
    chopAudioSchemaDefaultNClusters = 3 ∧
    (onToolCallChopArgs ⟨t, dl, md, none⟩).2.2.2 = 6 := by
  exact ⟨rfl, rfl⟩

/-- Auxiliary: mapping a function over `mapIdx` output. -/
theorem map_mapIdx {α β γ : Type} (l : List α) (f : Nat → α → β) (g : β → γ) :
    (l.mapIdx f).map g = l.mapIdx (fun i a => g (f i a)) := by
  induction l generalizing f with
  | nil => rfl
  | cons a rest ih => simp [List.mapIdx_cons, ih]

/-- Auxiliary: `mapIdx` with an index-independent function is `map`. -/
theorem mapIdx_indep {α β : Type} (l : List α) (v : α → β) :
    l.mapIdx (fun _ a => v a) = l.map v := by
  induction l with
  | nil => rfl
  | cons a rest ih => simp [List.mapIdx_cons, ih]

/-- C8: the chop branch of `handleAudioProcessed` creates exactly
`min(number of chops, 8)` timeline blocks — never more than 8 — and the
created blocks' durations in measures are exactly
`max 2 (min 8 (chop.duration * 4))`, chop by chop in order. -/
theorem timeline_chop_blocks (now nTracks : Nat) (chops : List ChopPayload) :
    (handleAudioProcessedChopBlocks now nTracks chops).length =
      min chops.length 8 ∧
    (handleAudioProcessedChopBlocks now nTracks chops).map
        (fun bl => bl.duration) =
      (chops.take 8).map (fun c => max 2 (min 8 (c.duration * 4))) := by
  constructor
  · simp [handleAudioProcessedChopBlocks, Nat.min_comm]
  · unfold handleAudioProcessedChopBlocks
    rw [map_mapIdx]
    exact mapIdx_indep _ _

/-! ## Lemmas about the modelled Segmenter -/

theorem boundaryDiffs_sum (l : List ℚ) (x dur : ℚ) :
    (boundaryDiffs (x :: l) dur).sum = dur - x := by
  induction l generalizing x with
  | nil => simp [boundaryDiffs]
  | cons y rest ih =>
      simp only [boundaryDiffs, List.sum_cons, ih y]
      ring

theorem boundaryDiffs_pos (l : List ℚ) (dur : ℚ)
    (hs : l.Pairwise (· < ·)) (hd : ∀ y ∈ l, y < dur) :
    ∀ z ∈ boundaryDiffs l dur, 0 < z := by
  induction l with
  | nil => simp [boundaryDiffs]
  | cons x rest ih =>
      cases rest with
      | nil =>
          simp only [boundaryDiffs, List.mem_singleton]
          intro z hz
          have := hd x (by simp)
          rw [hz]
          linarith
      | cons y rest2 =>
          simp only [boundaryDiffs, List.mem_cons]
          rintro z (rfl | hz)
          · have : x < y := (List.pairwise_cons.mp hs).1 y (by simp)
            linarith
          · exact ih (List.pairwise_cons.mp hs).2
              (fun u hu => hd u (by simp [hu])) z hz

theorem boundaryDiffs_ne_nil (l : List ℚ) (x dur : ℚ) :
    boundaryDiffs (x :: l) dur ≠ [] := by
  cases l <;> simp [boundaryDiffs]

theorem mergeForward_sum (m : ℚ) (l : List ℚ) :
    (mergeForward m l).sum = l.sum := by
  induction l using mergeForward.induct m with
  | case1 => simp [mergeForward]
  | case2 x => simp [mergeForward]
  | case3 x y rest hlt ih =>
      rw [mergeForward]
      simp only [if_pos hlt]
      rw [ih]
      simp [List.sum_cons]
      ring
  | case4 x y rest hge ih =>
      rw [mergeForward]
      simp only [if_neg hge]
      simp [List.sum_cons, ih]

theorem mergeForward_pos (m : ℚ) (l : List ℚ) (h : ∀ x ∈ l, 0 < x) :
    ∀ x ∈ mergeForward m l, 0 < x := by
  induction l using mergeForward.induct m with
  | case1 => simp [mergeForward]
  | case2 x =>
      simpa [mergeForward] using h
  | case3 x y rest hlt ih =>
      rw [mergeForward]
      simp only [if_pos hlt]
      refine ih (fun u hu => ?_)
      rcases List.mem_cons.mp hu with rfl | hu2
      · have h1 := h x (by simp)
        have h2 := h y (by simp)
        linarith
      · exact h u (by simp [hu2])
  | case4 x y rest hge ih =>
      rw [mergeForward]
      simp only [if_neg hge, List.mem_cons]
      rintro z (rfl | hz)
      · exact h z (by simp)
      · exact ih (fun u hu => h u (by simp [List.mem_cons.mp hu])) z hz

theorem mergeForward_ne_nil (m : ℚ) (l : List ℚ) (h : l ≠ []) :
    mergeForward m l ≠ [] := by
  induction l using mergeForward.induct m with
  | case1 => exact absurd rfl h
  | case2 x => simp [mergeForward]
  | case3 x y rest hlt ih =>
      rw [mergeForward]
      simp only [if_pos hlt]
      exact ih (by simp)
  | case4 x y rest hge ih =>
      rw [mergeForward]
      simp only [if_neg hge]
      simp

theorem mergeTail_sum (m : ℚ) (l : List ℚ) :
    (mergeTail m l).sum = l.sum := by
  induction l using mergeTail.induct m with
  | case1 => rfl
  | case2 x => rfl
  | case3 x y hy =>
      simp [mergeTail, hy]
  | case4 x y hy =>
      simp [mergeTail, hy]
  | case5 x y z rest ih =>
      simp [mergeTail, List.sum_cons, ih]

theorem mergeTail_pos (m : ℚ) (l : List ℚ) (h : ∀ x ∈ l, 0 < x) :
    ∀ x ∈ mergeTail m l, 0 < x := by
  induction l using mergeTail.induct m with
  | case1 => simp [mergeTail]
  | case2 x => simpa [mergeTail] using h
  | case3 x y hy =>
      have h1 := h x (by simp)
      have h2 := h y (by simp)
      simp [mergeTail, hy]
      linarith
  | case4 x y hy =>
      have h1 := h x (by simp)
      have h2 := h y (by simp)
      simp [mergeTail, hy]
      exact ⟨h1, h2⟩
  | case5 x y z rest ih =>
      simp only [mergeTail, List.mem_cons]
      rintro u (rfl | hu)
      · exact h u (by simp)
      · exact ih (fun v hv => h v (List.mem_cons_of_mem x hv)) u hu

theorem mergeTail_ne_nil (m : ℚ) (l : List ℚ) (h : l ≠ []) :
    mergeTail m l ≠ [] := by
  induction l using mergeTail.induct m with
  | case1 => exact absurd rfl h
  | case2 x => simp [mergeTail]
  | case3 x y hy => simp [mergeTail, hy]
  | case4 x y hy => simp [mergeTail, hy]
  | case5 x y z rest ih => simp [mergeTail]

theorem subdivide_facts (d m x : ℚ) (hm : 0 < m) (hx : 0 < x) :
    (subdivide d m x).sum = x ∧ (∀ y ∈ subdivide d m x, 0 < y) ∧
      subdivide d m x ≠ [] := by
  unfold subdivide
  by_cases hg : d < x ∧ m ≤ d
  · obtain ⟨hdx, hmd⟩ := hg
    have hd : 0 < d := lt_of_lt_of_le hm hmd
    have h1 : (1:ℚ) ≤ x / d := (le_div_iff hd).mpr (by linarith)
    have hfl : 1 ≤ (x / d).floor := Rat.le_floor.mpr (by exact_mod_cast h1)
    set k : Nat := ((x / d).floor).toNat with hk
    have hkc : (k : ℚ) = ((x / d).floor : ℤ) := by
      rw [hk]
      exact_mod_cast Int.toNat_of_nonneg (by omega)
    have hk1 : 1 ≤ k := by omega
    have hkd : (k : ℚ) * d ≤ x := by
      have := Int.floor_le (α := ℚ) (x / d)
      rw [hkc]
      calc ((x / d).floor : ℚ) * d ≤ (x / d) * d := by
            exact mul_le_mul_of_nonneg_right (by exact_mod_cast this) (le_of_lt hd)
        _ = x := div_mul_cancel₀ x (ne_of_gt hd)
    have hkd2 : x < ((k : ℚ) + 1) * d := by
      have := Int.lt_floor_add_one (α := ℚ) (x / d)
      have h2 : x / d < (k : ℚ) + 1 := by rw [hkc]; exact_mod_cast this
      calc x = (x / d) * d := (div_mul_cancel₀ x (ne_of_gt hd)).symm
        _ < ((k : ℚ) + 1) * d := by
            exact mul_lt_mul_of_pos_right h2 hd
    rw [if_pos ⟨hdx, hmd⟩]
    set r : ℚ := x - (k : ℚ) * d with hr
    by_cases hr0 : r = 0
    · rw [if_pos hr0]
      refine ⟨?_, ?_, ?_⟩
      · simp only [List.sum_replicate, nsmul_eq_mul]
        linarith [hr0, hr]
      · intro y hy
        rw [List.eq_of_mem_replicate hy]
        exact hd
      · simp only [ne_eq, List.replicate_eq_nil_iff]
        omega
    · rw [if_neg hr0]
      by_cases hmr : m ≤ r
      · rw [if_pos hmr]
        refine ⟨?_, ?_, ?_⟩
        · simp only [List.sum_append, List.sum_replicate, nsmul_eq_mul,
            List.sum_cons, List.sum_nil]
          linarith [hr]
        · intro y hy
          rcases List.mem_append.mp hy with hy1 | hy2
          · rw [List.eq_of_mem_replicate hy1]
            exact hd
          · rw [List.mem_singleton.mp hy2]
            linarith
        · simp
      · rw [if_neg hmr]
        have hkm : ((k - 1 : Nat) : ℚ) = (k : ℚ) - 1 := by
          have : (1:Nat) ≤ k := hk1
          push_cast [Nat.cast_sub this]
          ring
        refine ⟨?_, ?_, ?_⟩
        · simp only [List.sum_append, List.sum_replicate, nsmul_eq_mul,
            List.sum_cons, List.sum_nil, hkm]
          ring
        · intro y hy
          rcases List.mem_append.mp hy with hy1 | hy2
          · rw [List.eq_of_mem_replicate hy1]
            exact hd
          · rw [List.mem_singleton.mp hy2]
            have : 0 ≤ r := by
              by_contra hcon
              push_neg at hcon
              linarith [hkd]
            linarith
        · simp
  · rw [if_neg hg]
    refine ⟨by simp, ?_, by simp⟩
    intro y hy
    rw [List.mem_singleton.mp hy]
    exact hx

theorem getD_mem {α : Type} (l : List α) (i : Nat) (d : α) (h : i < l.length) :
    l.getD i d ∈ l := by
  rw [List.getD_eq_getElem?_getD, List.getElem?_eq_getElem h]
  exact List.getElem_mem h

theorem sum_flatMap {α : Type} (l : List α) (f : α → List ℚ) :
    (l.flatMap f).sum = (l.map (fun a => (f a).sum)).sum := by
  induction l with
  | nil => rfl
  | cons a t ih => simp [List.flatMap_cons, ih]

theorem validParams_iff (p : ChopParams) :
    validParams p = true ↔
      0 < p.default_length ∧ 0 < p.min_duration ∧
        1 ≤ p.n_clusters ∧ 1 ≤ p.max_chops := by
  unfold validParams
  simp [Bool.and_eq_true, decide_eq_true_eq, and_assoc]

theorem duration_pos_facts (b : AudioBuffer) (h : 0 < b.duration) :
    1 ≤ b.sampleRate ∧ 1 ≤ b.samples.length := by
  unfold AudioBuffer.duration at h
  constructor
  · by_contra hc
    push_neg at hc
    have h0 : b.sampleRate = 0 := by omega
    rw [h0] at h
    simp at h
  · by_contra hc
    push_neg at hc
    have h0 : b.samples.length = 0 := by omega
    rw [h0] at h
    simp at h

theorem onsetTimes_sorted (b : AudioBuffer) (hr : 1 ≤ b.sampleRate) :
    (onsetTimes b).Pairwise (· < ·) := by
  unfold onsetTimes
  have hrpos : (0:ℚ) < (b.sampleRate : ℚ) := by exact_mod_cast hr
  refine List.pairwise_cons.mpr ⟨?_, ?_⟩
  · intro t ht
    obtain ⟨i, hi, rfl⟩ := List.mem_map.mp ht
    obtain ⟨-, hq⟩ := List.mem_filter.mp hi
    have h1 : 1 ≤ i := by
      simp only [Bool.and_eq_true, decide_eq_true_eq] at hq
      exact hq.1
    have : (0:ℚ) < ((i * windowSize : Nat) : ℚ) := by
      have : 1 ≤ i * windowSize := by
        unfold windowSize
        omega
      exact_mod_cast Nat.lt_of_lt_of_le Nat.zero_lt_one this
    positivity
  · rw [List.pairwise_map]
    refine ((List.pairwise_lt_range _).sublist (List.filter_sublist _)).imp ?_
    intro i j hij
    show ((i * windowSize : Nat) : ℚ) / (b.sampleRate : ℚ) < ((j * windowSize : Nat) : ℚ) / (b.sampleRate : ℚ)
    have hml : (i * windowSize : Nat) < (j * windowSize : Nat) := by
      unfold windowSize
      omega
    have : ((i * windowSize : Nat) : ℚ) < ((j * windowSize : Nat) : ℚ) := by
      exact_mod_cast hml
    exact (div_lt_div_right hrpos).mpr this

theorem onsetTimes_lt_duration (b : AudioBuffer) (h : 0 < b.duration) :
    ∀ t ∈ onsetTimes b, t < b.duration := by
  obtain ⟨hr, hl⟩ := duration_pos_facts b h
  have hrpos : (0:ℚ) < (b.sampleRate : ℚ) := by exact_mod_cast hr
  intro t ht
  unfold onsetTimes at ht
  rcases List.mem_cons.mp ht with rfl | hmem
  · exact h
  · obtain ⟨i, hi, rfl⟩ := List.mem_map.mp hmem
    obtain ⟨hrange, -⟩ := List.mem_filter.mp hi
    have hiw : i * windowSize < b.samples.length := by
      have := List.mem_range.mp hrange
      unfold windowSize at this ⊢
      omega
    unfold AudioBuffer.duration
    have hc : ((i * windowSize : Nat) : ℚ) < (b.samples.length : ℚ) := by
      exact_mod_cast hiw
    exact (div_lt_div_right hrpos).mpr hc

theorem segmentLengths_spec (p : ChopParams) (b : AudioBuffer)
    (hv : validParams p = true) (hd : 0 < b.duration) :
    (segmentLengths p b.duration (onsetTimes b)).sum = b.duration ∧
    (∀ x ∈ segmentLengths p b.duration (onsetTimes b), 0 < x) ∧
    segmentLengths p b.duration (onsetTimes b) ≠ [] := by
  obtain ⟨-, hm, -, -⟩ := (validParams_iff p).mp hv
  obtain ⟨hr, -⟩ := duration_pos_facts b hd
  have hsorted := onsetTimes_sorted b hr
  have hlt := onsetTimes_lt_duration b hd
  set l0 := boundaryDiffs (onsetTimes b) b.duration with hl0
  have h0sum : l0.sum = b.duration := by
    rw [hl0]
    show (boundaryDiffs (0 :: _) b.duration).sum = b.duration
    rw [boundaryDiffs_sum]
    ring
  have h0pos : ∀ x ∈ l0, 0 < x := boundaryDiffs_pos _ _ hsorted hlt
  have h0ne : l0 ≠ [] := boundaryDiffs_ne_nil _ _ _
  set l1 := mergeForward p.min_duration l0 with hl1
  have h1sum : l1.sum = b.duration := by rw [hl1, mergeForward_sum, h0sum]
  have h1pos : ∀ x ∈ l1, 0 < x := mergeForward_pos _ _ h0pos
  have h1ne : l1 ≠ [] := mergeForward_ne_nil _ _ h0ne
  set l2 := mergeTail p.min_duration l1 with hl2
  have h2sum : l2.sum = b.duration := by rw [hl2, mergeTail_sum, h1sum]
  have h2pos : ∀ x ∈ l2, 0 < x := mergeTail_pos _ _ h1pos
  have h2ne : l2 ≠ [] := mergeTail_ne_nil _ _ h1ne
  have hlens : segmentLengths p b.duration (onsetTimes b) =
      l2.flatMap (subdivide p.default_length p.min_duration) := rfl
  refine ⟨?_, ?_, ?_⟩
  · rw [hlens, sum_flatMap]
    have hmap : l2.map (fun a => (subdivide p.default_length p.min_duration a).sum) =
        l2.map id := by
      refine List.map_congr_left ?_
      intro a ha
      exact (subdivide_facts _ _ a hm (h2pos a ha)).1
    rw [hmap, List.map_id, h2sum]
  · rw [hlens]
    intro x hx
    obtain ⟨a, ha, hxa⟩ := List.mem_flatMap.mp hx
    exact (subdivide_facts _ _ a hm (h2pos a ha)).2.1 x hxa
  · rw [hlens]
    obtain ⟨a, t, he⟩ := List.exists_cons_of_ne_nil h2ne
    rw [he, List.flatMap_cons]
    intro hcon
    rcases List.append_eq_nil.mp hcon with ⟨hnil, -⟩
    exact (subdivide_facts _ _ a hm (h2pos a (by rw [he]; simp))).2.2 hnil

theorem segmentsFromLengths_length (s : ℚ) (lens : List ℚ) :
    (segmentsFromLengths s lens).length = lens.length := by
  induction lens generalizing s with
  | nil => rfl
  | cons l rest ih => simp [segmentsFromLengths, ih]

theorem segmentsFromLengths_chain (s : ℚ) (lens : List ℚ) :
    List.Chain' (fun a c => a.2 = c.1) (segmentsFromLengths s lens) := by
  induction lens generalizing s with
  | nil => simp [segmentsFromLengths]
  | cons l rest ih =>
      cases rest with
      | nil => simp [segmentsFromLengths]
      | cons l2 rest2 =>
          rw [show segmentsFromLengths s (l :: l2 :: rest2) =
              (s, s + l) :: segmentsFromLengths (s + l) (l2 :: rest2) from rfl]
          rw [show segmentsFromLengths (s + l) (l2 :: rest2) =
              (s + l, s + l + l2) :: segmentsFromLengths (s + l + l2) rest2 from rfl]
          refine List.chain'_cons.mpr ⟨rfl, ?_⟩
          have := ih (s + l)
          rw [show segmentsFromLengths (s + l) (l2 :: rest2) =
              (s + l, s + l + l2) :: segmentsFromLengths (s + l + l2) rest2 from rfl] at this
          exact this

theorem segmentsFromLengths_getLast (s : ℚ) (lens : List ℚ) (h : lens ≠ []) :
    (segmentsFromLengths s lens).getLast?.map Prod.snd = some (s + lens.sum) := by
  induction lens generalizing s with
  | nil => exact absurd rfl h
  | cons l rest ih =>
      cases rest with
      | nil => simp [segmentsFromLengths]
      | cons l2 rest2 =>
          rw [show segmentsFromLengths s (l :: l2 :: rest2) =
              (s, s + l) :: segmentsFromLengths (s + l) (l2 :: rest2) from rfl]
          have hne : segmentsFromLengths (s + l) (l2 :: rest2) ≠ [] := by
            simp [segmentsFromLengths]
          obtain ⟨a, t, he⟩ := List.exists_cons_of_ne_nil hne
          rw [he, List.getLast?_cons_cons]
          rw [← he, ih (s + l) (by simp)]
          simp [List.sum_cons]
          ring

theorem segmentsFromLengths_mem_sub (s : ℚ) (lens : List ℚ) :
    ∀ seg ∈ segmentsFromLengths s lens, seg.2 - seg.1 ∈ lens := by
  induction lens generalizing s with
  | nil => simp [segmentsFromLengths]
  | cons l rest ih =>
      intro seg hseg
      rw [show segmentsFromLengths s (l :: rest) =
          (s, s + l) :: segmentsFromLengths (s + l) rest from rfl] at hseg
      rcases List.mem_cons.mp hseg with rfl | hmem
      · simp
      · exact List.mem_cons_of_mem _ (ih (s + l) seg hmem)

theorem runSegmenter_ok_iff (p : ChopParams) (b : AudioBuffer)
    (segs : List (ℚ × ℚ)) :
    runSegmenter p b = Except.ok segs ↔
      ((segmentLengths p b.duration (onsetTimes b)).all
          (fun l => decide (p.min_duration ≤ l)) = true ∧
        segmentLengths p b.duration (onsetTimes b) ≠ [] ∧
        segs = segmentsFromLengths 0
          (segmentLengths p b.duration (onsetTimes b))) := by
  unfold runSegmenter
  by_cases hc : ((segmentLengths p b.duration (onsetTimes b)).all
      (fun l => decide (p.min_duration ≤ l)) &&
      !(segmentLengths p b.duration (onsetTimes b)).isEmpty) = true
  · rw [if_pos hc]
    have hc2 := hc
    simp only [Bool.and_eq_true, Bool.not_eq_true', List.isEmpty_eq_false] at hc2
    constructor
    · intro he
      injection he with he2
      exact ⟨hc2.1, hc2.2, he2.symm⟩
    · rintro ⟨-, -, rfl⟩
      rfl
  · rw [if_neg hc]
    constructor
    · intro he
      cases he
    · rintro ⟨h1, h2, -⟩
      refine absurd ?_ hc
      simp only [Bool.and_eq_true, Bool.not_eq_true', List.isEmpty_eq_false]
      exact ⟨h1, h2⟩

/-! ## Lemmas about the modelled Clusterer and Representative Selector -/

theorem nearestIdx_lt (cs : List (List ℚ)) (v : List ℚ) (h : cs ≠ []) :
    nearestIdx cs v < cs.length := by
  unfold nearestIdx
  rcases hm : (List.range cs.length).argmin (fun i => sqDist (cs.getD i []) v)
    with - | i
  · exfalso
    have hr := List.argmin_eq_none.mp hm
    have hlen : cs.length = 0 := by
      by_contra hcon
      have h0 : (0:Nat) ∈ List.range cs.length := List.mem_range.mpr (by omega)
      rw [hr] at h0
      exact absurd h0 (List.not_mem_nil 0)
    exact h (List.length_eq_zero.mp hlen)
  · have := List.argmin_mem hm
    simpa using List.mem_range.mp this

theorem assignLabels_length (cs pts : List (List ℚ)) :
    (assignLabels cs pts).length = pts.length := by
  simp [assignLabels]

theorem assignLabels_lt (cs pts : List (List ℚ)) (h : cs ≠ []) :
    ∀ x ∈ assignLabels cs pts, x < cs.length := by
  intro x hx
  obtain ⟨v, -, rfl⟩ := List.mem_map.mp hx
  exact nearestIdx_lt cs v h

theorem updateCentroids_length (cs pts : List (List ℚ)) (labels : List Nat) :
    (updateCentroids cs pts labels).length = cs.length := by
  simp [updateCentroids, List.length_mapIdx]

theorem kmeansLoop_length (pts : List (List ℚ)) (fuel : Nat)
    (cs : List (List ℚ)) :
    (kmeansLoop pts fuel cs).length = pts.length := by
  induction fuel generalizing cs with
  | zero => simp [kmeansLoop, assignLabels_length]
  | succ f ih =>
      rw [kmeansLoop]
      split
      · exact assignLabels_length cs pts
      · exact ih _

theorem kmeansLoop_lt (pts : List (List ℚ)) (fuel : Nat)
    (cs : List (List ℚ)) (K : Nat) (hlen : cs.length = K) (hK : 1 ≤ K) :
    ∀ x ∈ kmeansLoop pts fuel cs, x < K := by
  induction fuel generalizing cs with
  | zero =>
      rw [kmeansLoop, ← hlen]
      exact assignLabels_lt cs pts
        (by intro hnil; rw [hnil] at hlen; simp at hlen; omega)
  | succ f ih =>
      rw [kmeansLoop]
      split
      · rw [← hlen]
        exact assignLabels_lt cs pts
          (by intro hnil; rw [hnil] at hlen; simp at hlen; omega)
      · exact ih _ (by rw [updateCentroids_length, hlen])

theorem kmeansLabels_length (seed k : Nat) (pts : List (List ℚ)) :
    (kmeansLabels seed k pts).length = pts.length := by
  unfold kmeansLabels
  split
  · simp
  · rw [kmeansLoop_length]

theorem kmeansLabels_lt (seed k : Nat) (pts : List (List ℚ)) (hk : 1 ≤ k)
    (hn : pts ≠ []) : ∀ x ∈ kmeansLabels seed k pts, x < min k pts.length := by
  have hn1 : 1 ≤ pts.length := by
    rcases pts with - | ⟨a, t⟩
    · exact absurd rfl hn
    · simp
  unfold kmeansLabels
  split
  · rename_i hk2
    intro x hx
    rw [hk2]
    exact List.mem_range.mp hx
  · refine kmeansLoop_lt pts 16 _ _ ?_ ?_
    · rw [List.length_take]
      exact Nat.min_eq_left (Nat.min_le_right k pts.length)
    · omega

theorem clusterMembers_lt (labels : List Nat) (l : Nat) :
    ∀ i ∈ clusterMembers labels l, i < labels.length := by
  intro i hi
  unfold clusterMembers at hi
  exact List.mem_range.mp (List.mem_filter.mp hi).1

theorem count_map_indicator (L : List Nat) (a : Nat) :
    (L.map (fun l => if a = l then 1 else 0)).sum = L.count a := by
  induction L with
  | nil => rfl
  | cons b t ih =>
      simp only [List.map_cons, List.sum_cons, ih, List.count_cons]
      by_cases hab : a = b
      · simp [hab]
        omega
      · simp [hab, Ne.symm hab]

theorem clusterSize_eq_count (labels : List Nat) (l : Nat) :
    clusterSize labels l = labels.count l := by
  unfold clusterSize clusterMembers
  induction labels with
  | nil => rfl
  | cons a t ih =>
      rw [List.length_cons, List.range_succ_eq_map, List.filter_cons]
      have h1 : ((List.range t.length).map Nat.succ).filter
          (fun i => (a :: t).getD i 0 == l) =
          ((List.range t.length).filter (fun i => t.getD i 0 == l)).map
            Nat.succ := by
        rw [List.filter_map]
        rfl
      simp only [List.getD_eq_getElem?_getD] at ih
      simp only [List.getD_cons_zero, h1, List.count_cons]
      by_cases hal : a = l
      · simp [hal, ih]
      · have h2 : (a == l) = false := by simp [hal]
        simp [h2, ih, hal, Ne.symm hal]

theorem sum_count_range (labels : List Nat) (K : Nat)
    (h : ∀ x ∈ labels, x < K) :
    ((List.range K).map (fun l => labels.count l)).sum = labels.length := by
  induction labels with
  | nil => simp [List.count_nil]
  | cons a t ih =>
      have ha : a < K := h a (by simp)
      have hmap : (List.range K).map (fun l => (a :: t).count l) =
          (List.range K).map
            (fun l => t.count l + if a = l then 1 else 0) := by
        refine List.map_congr_left ?_
        intro l hl
        rw [List.count_cons]
        by_cases hla : a = l
        · simp [hla]
        · have hb : (a == l) = false := by simp [hla]
          simp [hla, hb]
      rw [hmap]
      have hsplit : ∀ L : List Nat,
          (L.map (fun l => t.count l + if a = l then 1 else 0)).sum =
            (L.map (fun l => t.count l)).sum +
              (L.map (fun l => if a = l then 1 else 0)).sum := by
        intro L
        induction L with
        | nil => rfl
        | cons u rest ihr =>
            simp only [List.map_cons, List.sum_cons, ihr]
            omega
      rw [hsplit, count_map_indicator,
        List.count_eq_one_of_mem (List.nodup_range K)
          (List.mem_range.mpr ha),
        ih (fun x hx => h x (List.mem_cons_of_mem a hx))]
      simp

theorem rankedMembers_perm (pts : List (List ℚ)) (c : List ℚ)
    (members : List Nat) :
    List.Perm (rankedMembers pts c members) members :=
  List.perm_insertionSort _ _

theorem rankedMembers_length (pts : List (List ℚ)) (c : List ℚ)
    (members : List Nat) :
    (rankedMembers pts c members).length = members.length :=
  (rankedMembers_perm pts c members).length_eq

theorem rankedMembers_mem (pts : List (List ℚ)) (c : List ℚ)
    (members : List Nat) (i : Nat) (h : i ∈ rankedMembers pts c members) :
    i ∈ members :=
  ((rankedMembers_perm pts c members).mem_iff).mp h

theorem sum_map_le_length (L : List Nat) (f : Nat → Nat)
    (h : ∀ a ∈ L, f a ≤ 1) : (L.map f).sum ≤ L.length := by
  induction L with
  | nil => simp
  | cons a t ih =>
      simp only [List.map_cons, List.sum_cons, List.length_cons]
      have h1 := h a (by simp)
      have h2 := ih (fun x hx => h x (List.mem_cons_of_mem a hx))
      omega

theorem sum_map_div_of_dvd (L : List Nat) (N : Nat)
    (h : ∀ x ∈ L, N ∣ x) : (L.map (fun x => x / N)).sum = L.sum / N := by
  induction L with
  | nil => simp
  | cons a t ih =>
      simp only [List.map_cons, List.sum_cons]
      rw [ih (fun x hx => h x (List.mem_cons_of_mem a hx)),
        Nat.add_div_of_dvd_right (h a (by simp))]

theorem sum_map_mul (L : List Nat) (f : Nat → Nat) (M : Nat) :
    (L.map (fun x => M * f x)).sum = M * (L.map f).sum := by
  induction L with
  | nil => simp
  | cons a t ih =>
      simp only [List.map_cons, List.sum_cons, ih]
      ring

theorem standardize_length (vecs : List (List ℚ)) :
    (standardize vecs).length = vecs.length := by
  simp [standardize]

theorem pipelinePoints_length (b : AudioBuffer) (segs : List (ℚ × ℚ)) :
    (pipelinePoints b segs).length = segs.length := by
  simp [pipelinePoints, standardize_length]

theorem selectRepresentatives_length_le (M keff : Nat)
    (pts : List (List ℚ)) (labels : List Nat) :
    (selectRepresentatives M keff pts labels).length ≤ M := by
  unfold selectRepresentatives
  rw [(List.perm_insertionSort _ _).length_eq]
  split
  · rw [List.length_flatMap]
    calc ((((List.insertionSort _ (List.range keff)).take M)).map
            (fun l => ((rankedMembers pts (centroidOf pts labels l)
              (clusterMembers labels l)).take 1).length)).sum
        ≤ ((List.insertionSort _ (List.range keff)).take M).length := by
          refine sum_map_le_length _ _ ?_
          intro a ha
          rw [List.length_take]
          omega
      _ ≤ M := by
          rw [List.length_take]
          omega
  · rw [List.length_take]
    omega

theorem selectRepresentatives_mem_lt (M keff : Nat)
    (pts : List (List ℚ)) (labels : List Nat) :
    ∀ i ∈ selectRepresentatives M keff pts labels, i < labels.length := by
  intro i hi
  unfold selectRepresentatives at hi
  rw [(List.perm_insertionSort _ _).mem_iff] at hi
  split at hi
  · obtain ⟨l, -, hil⟩ := List.mem_flatMap.mp hi
    exact clusterMembers_lt labels l i
      (rankedMembers_mem _ _ _ i (List.mem_of_mem_take hil))
  · obtain ⟨l, -, hil⟩ := List.mem_flatMap.mp (List.mem_of_mem_take hi)
    exact clusterMembers_lt labels l i
      (rankedMembers_mem _ _ _ i (List.mem_of_mem_take hil))

theorem selectRepresentatives_length_eq (M keff : Nat)
    (pts : List (List ℚ)) (labels : List Nat)
    (hM : keff ≤ M) (hM1 : 1 ≤ M)
    (hpart : ∀ x ∈ labels, x < keff)
    (hAmb : noRemainderAmbiguity M labels.length
      ((List.range keff).map (fun l => clusterSize labels l))) :
    (selectRepresentatives M keff pts labels).length =
      min M labels.length := by
  unfold selectRepresentatives
  rw [(List.perm_insertionSort _ _).length_eq]
  rw [if_neg (by omega)]
  rw [List.length_take, List.length_flatMap]
  simp only [Function.comp_def]
  have hlenmap : ((List.range keff).map
      (fun l => ((rankedMembers pts (centroidOf pts labels l)
        (clusterMembers labels l)).take
          (clusterQuota M labels.length (clusterSize labels l))).length)) =
      ((List.range keff).map (fun l =>
        min (clusterQuota M labels.length (clusterSize labels l))
          (clusterSize labels l))) := by
    refine List.map_congr_left ?_
    intro l hl
    rw [List.length_take, rankedMembers_length]
    rfl
  rw [hlenmap]
  have hsizes : ((List.range keff).map (fun l => clusterSize labels l)).sum =
      labels.length := by
    have : (List.range keff).map (fun l => clusterSize labels l) =
        (List.range keff).map (fun l => labels.count l) := by
      refine List.map_congr_left ?_
      intro l hl
      exact clusterSize_eq_count labels l
    rw [this, sum_count_range labels keff hpart]
  by_cases hN0 : labels.length = 0
  · have hz : ((List.range keff).map (fun l =>
        min (clusterQuota M labels.length (clusterSize labels l))
          (clusterSize labels l))) =
        (List.range keff).map (fun l => 0) := by
      refine List.map_congr_left ?_
      intro l hl
      have : clusterSize labels l = 0 := by
        rw [clusterSize_eq_count, List.length_eq_zero.mp hN0]
        rfl
      simp [this]
    rw [hz, hN0]
    simp
  · have hN1 : 1 ≤ labels.length := by omega
    by_cases hMN : labels.length ≤ M
    · have heqs : ((List.range keff).map (fun l =>
          min (clusterQuota M labels.length (clusterSize labels l))
            (clusterSize labels l))) =
          (List.range keff).map (fun l => clusterSize labels l) := by
        refine List.map_congr_left ?_
        intro l hl
        set s := clusterSize labels l with hs
        rcases Nat.eq_zero_or_pos s with hs0 | hs1
        · simp [hs0, clusterQuota]
        · have hq : s ≤ clusterQuota M labels.length s := by
            unfold clusterQuota
            have h1 : labels.length * s ≤ M * s :=
              Nat.mul_le_mul_right s hMN
            have h2 : labels.length * s / labels.length ≤
                M * s / labels.length := Nat.div_le_div_right h1
            rw [Nat.mul_div_cancel_left s (by omega)] at h2
            omega
          omega
      rw [heqs, hsizes]
    · push_neg at hMN
      have heqs : ((List.range keff).map (fun l =>
          min (clusterQuota M labels.length (clusterSize labels l))
            (clusterSize labels l))) =
          (List.range keff).map
            (fun l => M * clusterSize labels l / labels.length) := by
        refine List.map_congr_left ?_
        intro l hl
        set s := clusterSize labels l with hs
        have hdvd : labels.length ∣ M * s := by
          refine hAmb s ?_
          exact List.mem_map.mpr ⟨l, hl, hs.symm⟩
        rcases Nat.eq_zero_or_pos s with hs0 | hs1
        · simp [hs0, clusterQuota]
        · have hql : M * s / labels.length ≤ s := by
            have h1 : M * s ≤ labels.length * s :=
              Nat.mul_le_mul_right s (by omega)
            have h2 := Nat.div_le_div_right (c := labels.length) h1
            rw [Nat.mul_div_cancel_left s (by omega)] at h2
            exact h2
          have hq1 : 1 ≤ M * s / labels.length := by
            obtain ⟨q, hqe⟩ := hdvd
            have : 1 ≤ q := by
              rcases Nat.eq_zero_or_pos q with h0 | h1
              · rw [h0, Nat.mul_zero] at hqe
                have : 1 ≤ M * s := Nat.mul_le_mul hM1 hs1
                omega
              · exact h1
            rw [hqe, Nat.mul_div_cancel_left q (by omega)]
            exact this
          unfold clusterQuota
          omega
      rw [heqs]
      have hsum : ((List.range keff).map
          (fun l => M * clusterSize labels l / labels.length)).sum = M := by
        have hstep : ((List.range keff).map
            (fun l => M * clusterSize labels l / labels.length)) =
            (((List.range keff).map (fun l => M * clusterSize labels l)).map
              (fun x => x / labels.length)) := by
          rw [List.map_map]
          rfl
        have hdv : ∀ x ∈ (List.range keff).map
            (fun l => M * clusterSize labels l), labels.length ∣ x := by
          intro x hx
          obtain ⟨l, hl, rfl⟩ := List.mem_map.mp hx
          exact hAmb _ (List.mem_map.mpr ⟨l, hl, rfl⟩)
        rw [hstep, sum_map_div_of_dvd _ _ hdv]
        have hmul := sum_map_mul (List.range keff)
          (fun l => clusterSize labels l) M
        rw [hmul, hsizes, Nat.mul_div_cancel M (by omega)]
      rw [hsum]
      omega

/-! ## Inversion of a successful run -/

theorem runChop_ok_inversion (seed : Nat) (p : ChopParams) (b : AudioBuffer)
    (r : ChopResult) (h : runChop seed p b = Except.ok r) :
    validParams p = true ∧ b.duration ≠ 0 ∧
    ∃ segs, runSegmenter p b = Except.ok segs ∧
      r.chops = (selectRepresentatives p.max_chops
          (min p.n_clusters segs.length) (pipelinePoints b segs)
          (kmeansLabels seed p.n_clusters (pipelinePoints b segs))).map
        (buildChop b segs
          (kmeansLabels seed p.n_clusters (pipelinePoints b segs))) ∧
      r.metadata.segments_before_filtering = segs.length ∧
      r.metadata.clusters_used = min p.n_clusters segs.length := by
  unfold runChop at h
  by_cases hv : validParams p = true
  · rw [if_pos hv] at h
    by_cases hd : b.duration = 0
    · rw [if_pos hd] at h
      cases h
    · rw [if_neg hd] at h
      rcases hseg : runSegmenter p b with e | segs
      · rw [hseg] at h
        cases h
      · rw [hseg] at h
        simp only [Except.ok.injEq] at h
        refine ⟨hv, hd, segs, rfl, ?_, ?_, ?_⟩ <;> rw [← h]
  · rw [if_neg hv] at h
    cases h

/-! ## Claim theorems for the modelled engine -/

/-- C4: for a fixed decoded buffer and fixed parameters, two invocations
of the full pipeline — even under different ambient random seeds —
produce identical results: the deterministic clustering design never
consumes the seed, so repeated runs are byte-identical. -/
theorem chop_pipeline_deterministic (s1 s2 : Nat) (p : ChopParams)
    (b : AudioBuffer) : runChop s1 p b = runChop s2 p b := rfl

/-- C7: a parameter outside its documented range — `n_clusters = 0`,
`max_chops = 0`, or a non-positive `default_length`/`min_duration` —
makes the engine return `InvalidParameterError` for every buffer, with
a result independent of the audio (no buffer work happens); and the
`chopAudio` zod schema likewise rejects `nClusters = 0` and
`maxChops = 0`. -/
theorem invalid_parameters_rejected (seed : Nat) (p : ChopParams)
    (h : p.n_clusters = 0 ∨ p.max_chops = 0 ∨
      p.default_length ≤ 0 ∨ p.min_duration ≤ 0) :
    (∀ b, runChop seed p b = Except.error ChopError.invalidParameterError) ∧
    (∀ b1 b2, runChop seed p b1 = runChop seed p b2) ∧
    (∀ dl md mc, chopAudioSchemaAccepts dl md 0 mc = false) ∧
    (∀ dl md nc, chopAudioSchemaAccepts dl md nc 0 = false) := by
  have hv : ¬ validParams p = true := by
    intro hvt
    obtain ⟨h1, h2, h3, h4⟩ := (validParams_iff p).mp hvt
    rcases h with h0 | h0 | h0 | h0
    · omega
    · omega
    · linarith
    · linarith
  have herr : ∀ b, runChop seed p b =
      Except.error ChopError.invalidParameterError := by
    intro b
    unfold runChop
    rw [if_neg hv]
  have hzero1 : ¬((1:ℚ) ≤ 0) := by norm_num
  refine ⟨herr, fun b1 b2 => (herr b1).trans (herr b2).symm, ?_, ?_⟩
  · intro dl md mc
    simp [chopAudioSchemaAccepts, hzero1]
  · intro dl md nc
    simp [chopAudioSchemaAccepts, hzero1]

/-- Witness for C7: `n_clusters = 0` yields `InvalidParameterError` on a
concrete buffer, and the schema rejects `nClusters = 0`. -/
theorem invalid_parameters_rejected_witness :
    runChop 0 ⟨1, 1, 0, 5⟩ ⟨1, [0]⟩ =
      Except.error ChopError.invalidParameterError ∧
    chopAudioSchemaAccepts ((9:ℚ)/5) ((1:ℚ)/5) 0 6 = false :=
  ⟨(invalid_parameters_rejected 0 ⟨1, 1, 0, 5⟩ (Or.inl rfl)).1 ⟨1, [0]⟩,
   (invalid_parameters_rejected 0 ⟨1, 1, 0, 5⟩ (Or.inl rfl)).2.2.1
     ((9:ℚ)/5) ((1:ℚ)/5) 6⟩

/-- C1: every successful run returns at most `max_chops` chops; and
when `max_chops` covers `K_effective` and the proportional budget
distribution has no remainder ambiguity, exactly
`min(max_chops, segments_before_filtering)` chops come back. -/
theorem chop_output_budget (seed : Nat) (p : ChopParams) (b : AudioBuffer)
    (r : ChopResult) (h : runChop seed p b = Except.ok r) :
    r.chops.length ≤ p.max_chops ∧
    (r.metadata.clusters_used ≤ p.max_chops →
      noRemainderAmbiguity p.max_chops r.metadata.segments_before_filtering
        (runClusterSizes seed p b) →
      r.chops.length =
        min p.max_chops r.metadata.segments_before_filtering) := by
  obtain ⟨hv, hd, segs, hseg, hchops, hmeta, hkeff⟩ :=
    runChop_ok_inversion seed p b r h
  obtain ⟨-, hm, hk, hMc⟩ := (validParams_iff p).mp hv
  have hlablen :
      (kmeansLabels seed p.n_clusters (pipelinePoints b segs)).length =
        segs.length := by
    rw [kmeansLabels_length, pipelinePoints_length]
  have hchopslen : r.chops.length =
      (selectRepresentatives p.max_chops (min p.n_clusters segs.length)
        (pipelinePoints b segs)
        (kmeansLabels seed p.n_clusters (pipelinePoints b segs))).length := by
    rw [hchops, List.length_map]
  constructor
  · rw [hchopslen]
    exact selectRepresentatives_length_le _ _ _ _
  · intro hMk hAmb
    have hsegs_ne : segs ≠ [] := by
      obtain ⟨-, hne, hse⟩ := (runSegmenter_ok_iff p b segs).mp hseg
      intro hnil
      apply hne
      have hl := segmentsFromLengths_length 0
        (segmentLengths p b.duration (onsetTimes b))
      rw [← hse, hnil] at hl
      exact List.length_eq_zero.mp hl.symm
    have hpts_ne : pipelinePoints b segs ≠ [] := by
      intro hnil
      apply hsegs_ne
      have hl := pipelinePoints_length b segs
      rw [hnil] at hl
      exact List.length_eq_zero.mp hl.symm
    have hpart : ∀ x ∈ kmeansLabels seed p.n_clusters (pipelinePoints b segs),
        x < min p.n_clusters segs.length := by
      intro x hx
      have h2 := kmeansLabels_lt seed p.n_clusters (pipelinePoints b segs)
        hk hpts_ne x hx
      rwa [pipelinePoints_length] at h2
    have hAmb2 : noRemainderAmbiguity p.max_chops
        (kmeansLabels seed p.n_clusters (pipelinePoints b segs)).length
        ((List.range (min p.n_clusters segs.length)).map
          (fun l => clusterSize
            (kmeansLabels seed p.n_clusters (pipelinePoints b segs)) l)) := by
      unfold runClusterSizes at hAmb
      rw [hseg] at hAmb
      rw [hmeta, ← hlablen] at hAmb
      exact hAmb
    have heq := selectRepresentatives_length_eq p.max_chops
      (min p.n_clusters segs.length) (pipelinePoints b segs)
      (kmeansLabels seed p.n_clusters (pipelinePoints b segs))
      (by rw [← hkeff]; exact hMk) hMc hpart hAmb2
    rw [hchopslen, heq, hlablen, hmeta]

/-- C3: every successful run reports
`clusters_used = min(n_clusters, segments_before_filtering)`; and with
8 segments and `n_clusters = 10` the Clusterer assigns one cluster per
segment (labels `0..7`). -/
theorem clusters_used_policy (seed : Nat) (p : ChopParams) (b : AudioBuffer)
    (r : ChopResult) (h : runChop seed p b = Except.ok r) :
    r.metadata.clusters_used =
      min p.n_clusters r.metadata.segments_before_filtering ∧
    (∀ pts : List (List ℚ), pts.length = 8 →
      kmeansLabels seed 10 pts = List.range 8) := by
  obtain ⟨-, -, segs, -, -, hmeta, hkeff⟩ :=
    runChop_ok_inversion seed p b r h
  constructor
  · rw [hkeff, hmeta]
  · intro pts hlen
    unfold kmeansLabels
    rw [hlen, if_pos (by norm_num)]

/-- C5: every chop of a successful run lasts at least `min_duration`;
and a valid request on a non-empty buffer shorter than `min_duration`
raises `SegmentationInfeasibleError` naming the buffer duration. -/
theorem min_duration_invariant (seed : Nat) (p : ChopParams)
    (b : AudioBuffer) :
    (∀ r, runChop seed p b = Except.ok r →
      ∀ c ∈ r.chops, p.min_duration ≤ c.duration) ∧
    (validParams p = true → 0 < b.duration →
      b.duration < p.min_duration →
      runChop seed p b =
        Except.error (ChopError.segmentationInfeasibleError b.duration)) := by
  constructor
  · intro r h c hc
    obtain ⟨hv, hd, segs, hseg, hchops, -, -⟩ :=
      runChop_ok_inversion seed p b r h
    rw [hchops] at hc
    obtain ⟨i, hi, rfl⟩ := List.mem_map.mp hc
    obtain ⟨hall, hne, hse⟩ := (runSegmenter_ok_iff p b segs).mp hseg
    have hilt : i < segs.length := by
      have h2 := selectRepresentatives_mem_lt _ _ _ _ i hi
      rwa [kmeansLabels_length, pipelinePoints_length] at h2
    have hmem : segs.getD i (0, 0) ∈ segs := getD_mem segs i (0, 0) hilt
    have hsub : (segs.getD i (0, 0)).2 - (segs.getD i (0, 0)).1 ∈
        segmentLengths p b.duration (onsetTimes b) := by
      refine segmentsFromLengths_mem_sub 0 _ _ ?_
      rw [← hse]
      exact hmem
    have hdec := List.all_eq_true.mp hall _ hsub
    have hle : p.min_duration ≤
        (segs.getD i (0, 0)).2 - (segs.getD i (0, 0)).1 :=
      of_decide_eq_true hdec
    show p.min_duration ≤ (buildChop b segs _ i).duration
    simpa [buildChop] using hle
  · intro hv hd hdm
    obtain ⟨hsum, hpos, hne⟩ := segmentLengths_spec p b hv hd
    obtain ⟨a, t, hcons⟩ := List.exists_cons_of_ne_nil hne
    have hta : a ≤ (segmentLengths p b.duration (onsetTimes b)).sum := by
      rw [hcons]
      simp only [List.sum_cons]
      have ht : (0:ℚ) ≤ t.sum :=
        List.sum_nonneg
          (fun x hx => le_of_lt (hpos x (by rw [hcons]; simp [hx])))
      linarith
    have ha_lt : a < p.min_duration := by
      rw [hsum] at hta
      linarith
    have ha_mem : a ∈ segmentLengths p b.duration (onsetTimes b) := by
      rw [hcons]
      simp
    have hallfalse : (segmentLengths p b.duration (onsetTimes b)).all
        (fun l => decide (p.min_duration ≤ l)) = false := by
      refine List.all_eq_false.mpr ⟨a, ha_mem, ?_⟩
      simp only [decide_eq_true_eq]
      intro hcon
      linarith
    have hseg : runSegmenter p b =
        Except.error (ChopError.segmentationInfeasibleError b.duration) := by
      unfold runSegmenter
      rw [if_neg ?hc]
      case hc =>
        intro hcon
        rw [hallfalse] at hcon
        simp at hcon
    unfold runChop
    rw [if_pos hv, if_neg (by intro h0; rw [h0] at hd; exact lt_irrefl 0 hd),
      hseg]

/-- C6: for every successful run of a valid request on a non-empty
buffer, the Segmenter's segments (before representative filtering) are
non-empty, start at 0, tile the buffer with no gaps or overlaps, and
the last segment ends exactly at the buffer duration. -/
theorem segment_coverage (p : ChopParams) (b : AudioBuffer)
    (segs : List (ℚ × ℚ)) (hv : validParams p = true) (hd : 0 < b.duration)
    (h : runSegmenter p b = Except.ok segs) :
    segs ≠ [] ∧
    (segs.headD (0, 0)).1 = 0 ∧
    List.Chain' (fun a c => a.2 = c.1) segs ∧
    segs.getLast?.map Prod.snd = some b.duration ∧
    ∀ seg ∈ segs, seg.1 < seg.2 := by
  obtain ⟨hall, hne, hse⟩ := (runSegmenter_ok_iff p b segs).mp h
  obtain ⟨hsum, hpos, -⟩ := segmentLengths_spec p b hv hd
  refine ⟨?_, ?_, ?_, ?_, ?_⟩
  · intro hnil
    apply hne
    have hl := segmentsFromLengths_length 0
      (segmentLengths p b.duration (onsetTimes b))
    rw [← hse, hnil] at hl
    exact List.length_eq_zero.mp hl.symm
  · obtain ⟨a, t, hcons⟩ := List.exists_cons_of_ne_nil hne
    rw [hse, hcons]
    rfl
  · rw [hse]
    exact segmentsFromLengths_chain 0 _
  · rw [hse, segmentsFromLengths_getLast 0 _ hne, hsum]
    rw [zero_add]
  · intro seg hseg
    rw [hse] at hseg
    have := segmentsFromLengths_mem_sub 0 _ seg hseg
    have := hpos _ this
    linarith

/-- Witness for C1 at the concrete fixture run. -/
theorem chop_output_budget_witness :
    runChop 0 witnessParams witnessBuffer = Except.ok witnessResult ∧
    witnessResult.chops.length ≤ witnessParams.max_chops ∧
    witnessResult.chops.length =
      min witnessParams.max_chops
        witnessResult.metadata.segments_before_filtering := by
  have hrun : runChop 0 witnessParams witnessBuffer =
      Except.ok witnessResult := by
    with_unfolding_all decide
  have h := chop_output_budget 0 witnessParams witnessBuffer witnessResult hrun
  refine ⟨hrun, h.1, h.2 (by decide) ?_⟩
  unfold noRemainderAmbiguity
  with_unfolding_all decide

/-- Witness for C3 at the concrete fixture run. -/
theorem clusters_used_policy_witness :
    witnessResult.metadata.clusters_used =
      min witnessParams.n_clusters
        witnessResult.metadata.segments_before_filtering ∧
    kmeansLabels 0 10 (List.replicate 8 [0, 0]) = List.range 8 := by
  have hrun : runChop 0 witnessParams witnessBuffer =
      Except.ok witnessResult := by
    with_unfolding_all decide
  have h := clusters_used_policy 0 witnessParams witnessBuffer witnessResult
    hrun
  exact ⟨h.1, h.2 (List.replicate 8 [0, 0]) (by decide)⟩

/-- Witness for C5: every fixture chop lasts at least 1 second, and the
0.3-second buffer with a 0.5-second floor fails with
`SegmentationInfeasibleError 0.3`. -/
theorem min_duration_invariant_witness :
    (∀ c ∈ witnessResult.chops,
      witnessParams.min_duration ≤ c.duration) ∧
    runChop 0 shortParams shortBuffer =
      Except.error
        (ChopError.segmentationInfeasibleError shortBuffer.duration) := by
  have hrun : runChop 0 witnessParams witnessBuffer =
      Except.ok witnessResult := by
    with_unfolding_all decide
  refine ⟨(min_duration_invariant 0 witnessParams witnessBuffer).1
      witnessResult hrun, ?_⟩
  refine (min_duration_invariant 0 shortParams shortBuffer).2
    (by with_unfolding_all decide) (by with_unfolding_all decide)
    (by with_unfolding_all decide)

/-- Witness for C6 at the concrete fixture run: four 1-second segments
tiling [0, 4). -/
theorem segment_coverage_witness :
    runSegmenter witnessParams witnessBuffer =
      Except.ok [(0, 1), (1, 2), (2, 3), (3, 4)] ∧
    ((0:ℚ), (1:ℚ)) ∈ ([((0:ℚ), (1:ℚ)), (1, 2), (2, 3), (3, 4)]) ∧
    (([((0:ℚ), (1:ℚ)), (1, 2), (2, 3), (3, 4)].headD (0, 0)).1 = 0 ∧
      [((0:ℚ), (1:ℚ)), (1, 2), (2, 3), (3, 4)].getLast?.map Prod.snd =
        some witnessBuffer.duration) := by
  have hseg : runSegmenter witnessParams witnessBuffer =
      Except.ok [(0, 1), (1, 2), (2, 3), (3, 4)] := by
    with_unfolding_all decide
  have h := segment_coverage witnessParams witnessBuffer
    [(0, 1), (1, 2), (2, 3), (3, 4)] (by decide)
    (by with_unfolding_all decide) hseg
  exact ⟨hseg, by decide, h.2.1, h.2.2.2.1⟩

end Lavoe
